import Mathlib

/-!
Verification of the mandelrust escape-time fractal explorer.

Shallow embedding conventions:
* Rust `f64` values are embedded as exact rationals (`ℚ`).  All `f64`
  arithmetic in the source (`+`, `-`, `*`, `/`, literals) is embedded as the
  corresponding exact rational operation; `f64` division by zero (which IEEE
  maps to ±infinity) is modelled explicitly with `WithTop ℚ` in the one place
  the source can divide by zero (the zoom-box factor computation).
* Rust `u32` values are embedded as `ℕ`; where the source can overflow or
  underflow a `u32` (release-profile wrapping semantics) the wrap-around is
  made explicit with `% 2^32`.  `i32` results are obtained from the wrapped
  `u32` representation by `i32ofU32`.
* Rust `as` casts from `f64` to an integer type saturate (Rust semantics):
  the embedding uses explicit `min`/clamping.
* `f64::sqrt` appears in the source only inside comparisons and a floor
  (`Complex::norm`, `circle`); those uses are embedded by their exact
  characterizations (`√q ≤ 1 ↔ q ≤ 1`, `⌊√q⌋ = Nat.sqrt ⌊q⌋`), each proved
  as a bridging lemma over `Real.sqrt`.
* `astro_float::BigFloat` values at precision `p = 32` bits with
  `RoundingMode::None` (truncation) are embedded as rationals truncated to
  32 significant binary digits (`trunc32`).
-/

namespace Mandelrust

/-! ## Complex arithmetic (src/complex.rs) -/

/-- `Complex { r: f64, i: f64 }` from src/complex.rs, with `f64` embedded
as exact `ℚ`.  (Named inside the `Mandelrust` namespace to avoid clashing
with Mathlib's `Complex`.) -/
structure Complex where
  r : ℚ
  i : ℚ
deriving DecidableEq

namespace Complex

/-- Componentwise sum, as in `impl Add for Complex`. -/
instance : Add Complex where
  add a b := { r := a.r + b.r, i := a.i + b.i }

/-- Standard complex product, as in `impl Mul for Complex`:
`r = a.r*b.r - a.i*b.i`, `i = a.r*b.i + a.i*b.r`. -/
instance : Mul Complex where
  mul a b := { r := a.r * b.r - a.i * b.i, i := a.r * b.i + a.i * b.r }

/-- The squared magnitude `r*r + i*i`.  The source's `Complex::norm` is
`(r*r + i*i).sqrt()`; the source only ever compares `norm` against the
constant `2.`, and `√q > 2 ↔ q > 4` (see `norm_gt_two_iff`), so the
embedding works with the radicand. -/
def normSq (c : Complex) : ℚ := c.r * c.r + c.i * c.i

theorem normSq_nonneg (c : Complex) : 0 ≤ c.normSq := by
  have h1 : 0 ≤ c.r * c.r := mul_self_nonneg _
  have h2 : 0 ≤ c.i * c.i := mul_self_nonneg _
  simpa [normSq] using add_nonneg h1 h2

theorem add_def (a b : Complex) :
    a + b = { r := a.r + b.r, i := a.i + b.i } := rfl

theorem mul_def (a b : Complex) :
    a * b = { r := a.r * b.r - a.i * b.i, i := a.r * b.i + a.i * b.r } := rfl

@[simp] theorem add_r (a b : Complex) : (a + b).r = a.r + b.r := rfl

@[simp] theorem add_i (a b : Complex) : (a + b).i = a.i + b.i := rfl

@[simp] theorem mul_r (a b : Complex) : (a * b).r = a.r * b.r - a.i * b.i := rfl

@[simp] theorem mul_i (a b : Complex) : (a * b).i = a.r * b.i + a.i * b.r := rfl

/-- Bridging lemma: the source's escape test `z.norm() > 2.`
(`norm = √normSq`) holds exactly when `normSq > 4`. -/
theorem norm_gt_two_iff (c : Complex) :
    2 < Real.sqrt (c.normSq : ℝ) ↔ 4 < c.normSq := by
  have h0 : (0 : ℝ) ≤ 2 := by norm_num
  rw [show (2 : ℝ) = Real.sqrt 4 by
        rw [show (4 : ℝ) = 2 ^ 2 by norm_num, Real.sqrt_sq h0]]
  constructor
  · intro h
    by_contra hle
    push_neg at hle
    exact absurd (Real.sqrt_le_sqrt (by exact_mod_cast hle)) (not_le.mpr h)
  · intro h
    exact Real.sqrt_lt_sqrt (by norm_num) (by exact_mod_cast h)

end Complex

/-! ## Escape-time evaluators (src/main.rs) -/

/-- Loop body of `mandelbrot_naive` (src/main.rs:34-43): starting from the
current `z` and loop counter `i`, with `fuel` iterations of the budget left,
iterate `z = z*z + c` and return `i` at the first step whose result has
`norm > 2` (embedded as `normSq > 4`, see `Complex.norm_gt_two_iff`), or
`-1` when the budget runs out. -/
def mandelbrotNaiveGo (c : Complex) : Complex → ℕ → ℕ → ℤ
  | _, _, 0 => -1
  | z, i, fuel + 1 =>
    let z' := z * z + c
    if 4 < z'.normSq then (i : ℤ) else mandelbrotNaiveGo c z' (i + 1) fuel

/-- `mandelbrot_naive(c, iterations)` from src/main.rs:34-43. -/
def mandelbrot_naive (c : Complex) (iterations : ℕ) : ℤ :=
  mandelbrotNaiveGo c { r := 0, i := 0 } 0 iterations

/-- Loop body of `mandelbrot_optimized` (src/main.rs:45-61): the state is
`(x, y, x2, y2)` with `x2`, `y2` the squares carried across iterations; each
step computes `y = (x + x)*y + c.i`, `x = x2 - y2 + c.r`, refreshes the
squares and escapes when `x2 + y2 > 4`. -/
def mandelbrotOptGo (c : Complex) : ℚ → ℚ → ℚ → ℚ → ℕ → ℕ → ℤ
  | _, _, _, _, _, 0 => -1
  | x, y, x2, y2, i, fuel + 1 =>
    let y' := (x + x) * y + c.i
    let x' := x2 - y2 + c.r
    let x2' := x' * x'
    let y2' := y' * y'
    if 4 < x2' + y2' then (i : ℤ) else mandelbrotOptGo c x' y' x2' y2' (i + 1) fuel

/-- `mandelbrot_optimized(c, iterations)` from src/main.rs:45-61. -/
def mandelbrot_optimized (c : Complex) (iterations : ℕ) : ℤ :=
  mandelbrotOptGo c 0 0 0 0 0 iterations

theorem mandelbrotGo_agree (c : Complex) :
    ∀ (fuel : ℕ) (z : Complex) (x y x2 y2 : ℚ) (i : ℕ),
      x = z.r → y = z.i → x2 = x * x → y2 = y * y →
      mandelbrotNaiveGo c z i fuel = mandelbrotOptGo c x y x2 y2 i fuel := by
  intro fuel
  induction fuel with
  | zero => intro z x y x2 y2 i _ _ _ _; rfl
  | succ n ih =>
    intro z x y x2 y2 i hx hy hx2 hy2
    simp only [mandelbrotNaiveGo, mandelbrotOptGo]
    have hr : x2 - y2 + c.r = (z * z + c).r := by
      simp [hx, hy, hx2, hy2]
    have hi : (x + x) * y + c.i = (z * z + c).i := by
      simp [hx, hy]; ring
    have hs : (x2 - y2 + c.r) * (x2 - y2 + c.r) + ((x + x) * y + c.i) * ((x + x) * y + c.i)
        = (z * z + c).normSq := by
      rw [hr, hi, Complex.normSq]
    rw [hs]
    by_cases h : 4 < (z * z + c).normSq
    · simp only [Complex.normSq] at h ⊢
      rw [if_pos h, if_pos h]
    · simp only [Complex.normSq] at h ⊢
      rw [if_neg h, if_neg h]
      exact ih (z * z + c) _ _ _ _ (i + 1) hr hi rfl rfl

/-- **C1.** For every complex input `c` and every iteration budget, the naive
and the optimized Mandelbrot evaluator return the same integer: the same
0-based escape index, or both `-1`. -/
theorem C1_mandelbrot_naive_eq_optimized (c : Complex) (iterations : ℕ) :
    mandelbrot_naive c iterations = mandelbrot_optimized c iterations := by
  unfold mandelbrot_naive mandelbrot_optimized
  exact mandelbrotGo_agree c iterations { r := 0, i := 0 } 0 0 0 0 0 rfl rfl
    (by norm_num) (by norm_num)

/-! ## Viewport model (src/view.rs) -/

/-- Modelled from the spec: `settings.rs` (the static configuration
constants) is not under src/; the spec treats the pan step size as an
externally supplied opaque constant, so a representative positive value is
used.  None of the verified properties depend on its value. -/
def STEP_SIZE : ℚ := 100

/-- Modelled from the spec: `settings.rs` is not under src/; the spec treats
the geometric zoom step as an externally supplied opaque constant, so a
representative value `> 1` is used.  None of the verified properties depend
on its value beyond its being nonzero. -/
def ZOOM_STEP_SIZE : ℚ := 2

/-- `View { r, i, zoom: f64, sharpness: u32 }` from src/view.rs, with `f64`
embedded as exact `ℚ` and the `u32` sharpness as `ℕ` (wrap-around made
explicit in the operations that can overflow). -/
structure View where
  r : ℚ
  i : ℚ
  zoom : ℚ
  sharpness : ℕ
deriving DecidableEq

namespace View

/-- `View::pixel_to_complex` (src/view.rs:12-19):
`r = (x - width/2)/zoom + self.r`, `i = (height/2 - y)/zoom + self.i`. -/
def pixel_to_complex (v : View) (canvas_size : ℕ × ℕ) (pixel : ℕ × ℕ) : Complex :=
  let width := canvas_size.1
  let height := canvas_size.2
  let x := pixel.1
  let y := pixel.2
  { r := ((x : ℚ) - (width : ℚ) / 2) / v.zoom + v.r,
    i := ((height : ℚ) / 2 - (y : ℚ)) / v.zoom + v.i }

/-- `View::step_left` (src/view.rs:21-26). -/
def step_left (v : View) : View := { v with r := v.r - STEP_SIZE / v.zoom }

/-- `View::step_right` (src/view.rs:28-33). -/
def step_right (v : View) : View := { v with r := v.r + STEP_SIZE / v.zoom }

/-- `View::step_up` (src/view.rs:35-40). -/
def step_up (v : View) : View := { v with i := v.i + STEP_SIZE / v.zoom }

/-- `View::step_down` (src/view.rs:42-47). -/
def step_down (v : View) : View := { v with i := v.i - STEP_SIZE / v.zoom }

/-- `View::step_zoom_in` (src/view.rs:49-54). -/
def step_zoom_in (v : View) : View := { v with zoom := v.zoom * ZOOM_STEP_SIZE }

/-- `View::step_zoom_out` (src/view.rs:56-61). -/
def step_zoom_out (v : View) : View := { v with zoom := v.zoom / ZOOM_STEP_SIZE }

/-- `View::zoom_by` (src/view.rs:63-68). -/
def zoom_by (v : View) (zoom_factor : ℚ) : View :=
  { v with zoom := v.zoom * zoom_factor }

/-- `View::sharpen` (src/view.rs:70-75): `sharpness + 10` on a `u32`
(wrapping on overflow in the release profile). -/
def sharpen (v : View) : View :=
  { v with sharpness := (v.sharpness + 10) % 2 ^ 32 }

/-- `View::unsharpen` (src/view.rs:77-82): `sharpness - 10` on a `u32`.
There is no clamp in the source; `u32` subtraction wraps modulo `2^32` in
the release profile (and panics in a debug build when `sharpness < 10`). -/
def unsharpen (v : View) : View :=
  { v with sharpness := (v.sharpness + 2 ^ 32 - 10) % 2 ^ 32 }

/-- `View::center_on` (src/view.rs:84-90). -/
def center_on (v : View) (c : Complex) : View := { v with r := c.r, i := c.i }

end View

/-- The initial viewport pushed in `main` (src/main.rs:108-113). -/
def initialView : View := { r := -3/4, i := 0, zoom := 300, sharpness := 30 }

/-- **C8.** `step_left` then `step_right` (same zoom throughout) returns `r`
to its original value; `step_up` then `step_down` returns `i`; and
`step_zoom_in` then `step_zoom_out` returns `zoom` to its original value —
exactly, in the exact-rational embedding of the `f64` arithmetic (so in
particular within floating-point tolerance). -/
theorem C8_step_inverse_pairs (v : View) :
    v.step_left.step_right.r = v.r ∧
    v.step_up.step_down.i = v.i ∧
    v.step_zoom_in.step_zoom_out.zoom = v.zoom := by
  refine ⟨?_, ?_, ?_⟩
  · simp [View.step_left, View.step_right]
  · simp [View.step_up, View.step_down]
  · simp only [View.step_zoom_in, View.step_zoom_out]
    exact mul_div_cancel_right₀ v.zoom (by norm_num [ZOOM_STEP_SIZE])

theorem cast_nat_half (n : ℕ) : ((n / 2 : ℕ) : ℚ) = ((n : ℚ) - (n % 2 : ℕ)) / 2 := by
  have h : 2 * (n / 2) + n % 2 = n := Nat.div_add_mod n 2
  have h2 : (2 : ℚ) * ((n / 2 : ℕ) : ℚ) + ((n % 2 : ℕ) : ℚ) = (n : ℚ) := by
    exact_mod_cast h
  linarith

theorem half_pixel_bound (a q : ℚ) (ha : |a| ≤ 1 / 2) : |a / q| ≤ 1 / (2 * |q|) := by
  rcases eq_or_ne q 0 with h0 | h0
  · simp [h0]
  · have hq : 0 < |q| := abs_pos.mpr h0
    rw [abs_div]
    calc |a| / |q| ≤ (1 / 2) / |q| := by gcongr
      _ = 1 / (2 * |q|) := by rw [div_div]

/-- **C9.** The center pixel `(W/2, H/2)` maps to the viewport's stored
center `(v.r, v.i)` up to rounding: exactly when the canvas dimension is
even, and in general within half a pixel (`1/(2*|zoom|)`) on each axis, the
discrepancy coming only from the integer rounding of the pixel coordinate
`W/2`. -/
theorem C9_center_pixel_maps_to_center (v : View) (W H : ℕ) :
    |(v.pixel_to_complex (W, H) (W / 2, H / 2)).r - v.r| ≤ 1 / (2 * |v.zoom|) ∧
    |(v.pixel_to_complex (W, H) (W / 2, H / 2)).i - v.i| ≤ 1 / (2 * |v.zoom|) ∧
    (W % 2 = 0 → (v.pixel_to_complex (W, H) (W / 2, H / 2)).r = v.r) ∧
    (H % 2 = 0 → (v.pixel_to_complex (W, H) (W / 2, H / 2)).i = v.i) := by
  have hr : (v.pixel_to_complex (W, H) (W / 2, H / 2)).r - v.r
      = (-((W % 2 : ℕ) : ℚ) / 2) / v.zoom := by
    simp only [View.pixel_to_complex, add_sub_cancel_right]
    rw [cast_nat_half]
    ring_nf
  have hi : (v.pixel_to_complex (W, H) (W / 2, H / 2)).i - v.i
      = (((H % 2 : ℕ) : ℚ) / 2) / v.zoom := by
    simp only [View.pixel_to_complex, add_sub_cancel_right]
    rw [cast_nat_half]
    ring_nf
  refine ⟨?_, ?_, ?_, ?_⟩
  · rw [hr]
    apply half_pixel_bound
    rcases Nat.mod_two_eq_zero_or_one W with h | h <;> rw [h] <;> norm_num [abs_div]
  · rw [hi]
    apply half_pixel_bound
    rcases Nat.mod_two_eq_zero_or_one H with h | h <;> rw [h] <;> norm_num [abs_div]
  · intro h
    rw [← sub_eq_zero, hr, h]
    simp
  · intro h
    rw [← sub_eq_zero, hi, h]
    simp

/-- Witness for C9 at the default viewport on an 800×600 canvas: the center
pixel maps exactly to the stored center. -/
theorem C9_witness :
    (initialView.pixel_to_complex (800, 600) (800 / 2, 600 / 2)).r = initialView.r ∧
    (initialView.pixel_to_complex (800, 600) (800 / 2, 600 / 2)).i = initialView.i := by
  have h := C9_center_pixel_maps_to_center initialView 800 600
  exact ⟨h.2.2.1 (by norm_num), h.2.2.2 (by norm_num)⟩

/-- **C2 (code bug).** The source's `unsharpen` does *not* clamp: at
`sharpness = 10` it produces `0` (below the spec's floor of 1), and at
`sharpness = 5` the `u32` subtraction underflows — wrapping to `4294967291`
in a release build (and panicking in a debug build) — instead of clamping
to 1 as the spec mandates. -/
theorem C2_unsharpen_no_clamp :
    (View.unsharpen { r := -3/4, i := 0, zoom := 300, sharpness := 10 }).sharpness = 0 ∧
    (View.unsharpen { r := -3/4, i := 0, zoom := 300, sharpness := 10 }).sharpness < 1 ∧
    (View.unsharpen { r := -3/4, i := 0, zoom := 300, sharpness := 5 }).sharpness
      = 4294967291 ∧
    (View.unsharpen { r := -3/4, i := 0, zoom := 300, sharpness := 5 }).sharpness ≠ 1 := by
  refine ⟨?_, ?_, ?_, ?_⟩ <;> simp [View.unsharpen]

/-! ## Navigation history (the `nonempty` stack in src/main.rs) -/

/-- The `NonEmpty<View>` navigation history from src/main.rs (crate
`nonempty`): a head plus a tail vector; the structure can never be empty. -/
structure History where
  head : View
  tail : List View
deriving DecidableEq

namespace History

/-- Number of stored viewports (`NonEmpty::len`). -/
def len (h : History) : ℕ := 1 + h.tail.length

/-- `NonEmpty::last`: the last element of the tail, or the head when the
tail is empty — the "current" viewport. -/
def last (h : History) : View := h.tail.getLastD h.head

/-- `NonEmpty::push`: append to the tail. -/
def push (h : History) (v : View) : History := { h with tail := h.tail ++ [v] }

/-- `NonEmpty::pop`, as invoked by the Backspace handler
(src/main.rs:201-205): removes the last element of the tail if the tail is
nonempty, otherwise leaves the structure unchanged (the sole remaining
element cannot be removed). -/
def pop (h : History) : History :=
  if h.tail = [] then h else { h with tail := h.tail.dropLast }

theorem len_push (h : History) (v : View) : (h.push v).len = h.len + 1 := by
  simp [push, len]
  omega

theorem last_push (h : History) (v : View) : (h.push v).last = v := by
  simp [push, last, List.getLastD_concat]

theorem pop_push (h : History) (v : View) : (h.push v).pop = h := by
  simp [push, pop, List.dropLast_concat]

end History

/-- **C7.** The navigation history always holds at least one viewport:
undo (`pop`) on a single-element history leaves it unchanged (still length
1, same element); on a longer history it removes exactly the last element
(so pushing the removed current element back restores the history, and the
length drops by one); and push followed by undo restores the previous
history — in particular the previous top — exactly. -/
theorem C7_history_undo (h : History) (v : View) :
    (h.len = 1 → h.pop = h ∧ h.pop.len = 1 ∧ h.pop.last = h.last) ∧
    (1 < h.len → h.pop.len = h.len - 1 ∧ h.pop.push h.last = h) ∧
    ((h.push v).pop = h ∧ (h.push v).last = v ∧ (h.push v).pop.last = h.last) := by
  refine ⟨?_, ?_, History.pop_push h v, History.last_push h v, ?_⟩
  · intro h1
    have ht : h.tail = [] := by
      simp only [History.len] at h1
      exact List.eq_nil_of_length_eq_zero (by omega)
    simp [History.pop, ht, h1]
  · intro h1
    have ht : h.tail ≠ [] := by
      simp only [History.len] at h1
      intro hnil
      rw [hnil] at h1
      simp at h1
    constructor
    · simp only [History.pop, if_neg ht, History.len]
      have := List.length_pos.mpr ht
      simp [List.length_dropLast]
      omega
    · simp only [History.pop, if_neg ht, History.push, History.last]
      have hlast : h.tail.getLastD h.head = h.tail.getLast ht := by
        rw [List.getLastD_eq_getLast?, List.getLast?_eq_getLast _ ht]
        rfl
      rw [hlast]
      have : h.tail.dropLast ++ [h.tail.getLast ht] = h.tail :=
        List.dropLast_append_getLast ht
      cases h with
      | mk hd tl => simp_all
  · rw [History.pop_push]

/-- Witness for C7 at concrete histories: a singleton history survives undo
unchanged, and push-then-undo restores a two-element history exactly. -/
theorem C7_witness :
    ({ head := initialView, tail := [] } : History).pop
        = { head := initialView, tail := [] } ∧
    (({ head := initialView, tail := [initialView.step_left] } : History).push
        initialView.step_up).pop
        = { head := initialView, tail := [initialView.step_left] } := by
  constructor
  · exact ((C7_history_undo { head := initialView, tail := [] }
      initialView).1 (by simp [History.len])).1
  · exact ((C7_history_undo { head := initialView, tail := [initialView.step_left] }
      initialView.step_up).2.2).1

/-- The X-key handler (src/main.rs:183-191): compute the sharpened copy of
the current viewport; if the history holds more than one element, pop the
top; then push the new copy. -/
def sharpenHandler (h : History) : History :=
  let new_view := h.last.sharpen
  let h' := if 1 < h.len then h.pop else h
  h'.push new_view

/-- The S-key handler (src/main.rs:192-200): same as the X handler with
`unsharpen` in place of `sharpen`. -/
def unsharpenHandler (h : History) : History :=
  let new_view := h.last.unsharpen
  let h' := if 1 < h.len then h.pop else h
  h'.push new_view

/-- **C10.** Sharpness adjustments do not accumulate undo steps: when the
X or S handler runs on a history with more than one element, the top is
replaced (popped, then the sharpened/unsharpened copy pushed) and the
length is unchanged; on a single-element history the handler appends,
growing the length to 2.  In both cases the new top is the
sharpened/unsharpened copy of the old top. -/
theorem C10_sharpen_handlers_replace_top (h : History) :
    (1 < h.len →
      (sharpenHandler h).len = h.len ∧ sharpenHandler h = h.pop.push h.last.sharpen ∧
      (unsharpenHandler h).len = h.len ∧
        unsharpenHandler h = h.pop.push h.last.unsharpen) ∧
    (h.len = 1 →
      (sharpenHandler h).len = 2 ∧ (unsharpenHandler h).len = 2) ∧
    (sharpenHandler h).last = h.last.sharpen ∧
    (unsharpenHandler h).last = h.last.unsharpen := by
  have hlen : ∀ h' : History, 1 < h'.len → h'.tail ≠ [] := by
    intro h' h1 hnil
    simp [History.len, hnil] at h1
  refine ⟨?_, ?_, ?_, ?_⟩
  · intro h1
    have ht := hlen h h1
    have hpop : h.pop.len = h.len - 1 := by
      simp only [History.pop, if_neg ht, History.len, List.length_dropLast]
      have := List.length_pos.mpr ht
      omega
    refine ⟨?_, ?_, ?_, ?_⟩ <;>
      simp [sharpenHandler, unsharpenHandler, if_pos h1, History.len_push, hpop] <;>
      omega
  · intro h1
    have : ¬ 1 < h.len := by omega
    constructor <;>
      simp [sharpenHandler, unsharpenHandler, if_neg this, History.len_push, h1]
  · simp [sharpenHandler, History.last_push]
  · simp [unsharpenHandler, History.last_push]

/-- Witness for C10: on a concrete two-element history the X handler keeps
the length at 2 and replaces the top; on a singleton it grows the length
to 2. -/
theorem C10_witness :
    (sharpenHandler { head := initialView, tail := [initialView.step_left] }).len = 2 ∧
    (sharpenHandler { head := initialView, tail := [] }).len = 2 := by
  constructor
  · exact ((C10_sharpen_handlers_replace_top
      { head := initialView, tail := [initialView.step_left] }).1
        (by simp [History.len])).1
  · exact ((C10_sharpen_handlers_replace_top
      { head := initialView, tail := [] }).2.1 (by simp [History.len])).1

/-! ## Zoom-box (drag) branch (src/main.rs:243-266) -/

/-- IEEE `f64` division as it occurs in the zoom-factor computation: the
numerator is a positive canvas dimension and the denominator a nonnegative
selection size, so the only non-finite case is division by zero, which IEEE
maps to `+inf` — modelled as `⊤` in `WithTop ℚ`.  (The source raises no
division error: `f64` division by zero is well defined.) -/
def fdivPos (a b : ℚ) : WithTop ℚ := if b = 0 then ⊤ else ((a / b : ℚ) : WithTop ℚ)

/-- A viewport whose zoom may have become `+inf` (`⊤`): the result type of
the zoom-box computation, whose `zoom_by` multiplication is carried out in
`WithTop ℚ`. -/
structure ViewE where
  r : ℚ
  i : ℚ
  zoomE : WithTop ℚ
  sharpness : ℕ

/-- The zoom-box (drag) branch of the left-mouse release handler
(src/main.rs:243-266): `selected_width/height = abs_diff` of the corner
pixels, `new_center` maps the integer midpoint of the corners,
`zoom_factor_x/y = canvas / selection` in `f64`, the smaller factor wins
(`if zoom_factor_x <= zoom_factor_y`), and the pushed viewport is
`center_on(new_center).zoom_by(zoom_factor)`.  The `u32` corner midpoint
sum wraps modulo `2^32` as in the release profile. -/
def dragZoomBox (v : View) (W H x1 y1 x2 y2 : ℕ) : ViewE :=
  let selected_width := Nat.dist x1 x2
  let selected_height := Nat.dist y1 y2
  let new_center := v.pixel_to_complex (W, H)
    (((x1 + x2) % 2 ^ 32) / 2, ((y1 + y2) % 2 ^ 32) / 2)
  let zoom_factor_x := fdivPos (W : ℚ) (selected_width : ℚ)
  let zoom_factor_y := fdivPos (H : ℚ) (selected_height : ℚ)
  let zoom_factor := if zoom_factor_x ≤ zoom_factor_y then zoom_factor_x else zoom_factor_y
  { r := new_center.r, i := new_center.i,
    zoomE := (v.zoom : WithTop ℚ) * zoom_factor, sharpness := v.sharpness }

/-- **C3 (code bug).** The drag branch has no zero-size guard.  On the
default viewport (zoom 300) with an 800×600 canvas, a drag whose corners
share the x coordinate (`(100,0)` to `(100,300)`, zero selected width)
yields `zoom_factor_x = +inf`, so the y factor `600/300 = 2` wins and the
zoom *changes* from 300 to 600 — not a plain recenter; and a drag whose
corners coincide as `u32` pixels (possible when the two `f32` mouse
positions differ only sub-pixel) makes both factors `+inf` and the new zoom
`+inf`.  No division error is raised (IEEE gives `+inf`), but the claimed
"same zoom" behaviour fails; only the separate click branch
(src/main.rs:232-242), taken when the two mouse positions are exactly
equal, recenters without a zoom change. -/
theorem C3_zero_area_drag_changes_zoom :
    (dragZoomBox initialView 800 600 100 0 100 300).zoomE = ((600 : ℚ) : WithTop ℚ) ∧
    initialView.zoom = 300 ∧
    ((600 : ℚ) : WithTop ℚ) ≠ ((300 : ℚ) : WithTop ℚ) ∧
    (dragZoomBox initialView 800 600 100 50 100 50).zoomE = ⊤ := by
  have hdist0 : Nat.dist 100 100 = 0 := by simp [Nat.dist]
  have hdist300 : Nat.dist 0 300 = 300 := by simp [Nat.dist]
  have hdist50 : Nat.dist 50 50 = 0 := by simp [Nat.dist]
  refine ⟨?_, rfl, ?_, ?_⟩
  · simp only [dragZoomBox, fdivPos, hdist0, hdist300, initialView]
    norm_num
    rw [← WithTop.coe_ofNat 300, ← WithTop.coe_ofNat 2, ← WithTop.coe_ofNat 600,
      ← WithTop.coe_mul, WithTop.coe_inj]
    norm_num
  · intro h
    rw [WithTop.coe_inj] at h
    norm_num at h
  · simp only [dragZoomBox, fdivPos, hdist0, hdist50, initialView]
    norm_num

/-! ## The circle evaluator (src/main.rs:25-32) -/

/-- Reinterpret a `u32` bit pattern (a natural number `< 2^32`) as an
`i32`, as Rust's `as i32` cast does. -/
def i32ofU32 (n : ℕ) : ℤ := if n < 2 ^ 31 then (n : ℤ) else (n : ℤ) - 2 ^ 32

/-- `circle(c, iterations)` from src/main.rs:25-32.
`d = (r*r + i*i).sqrt()`; the test `d <= 1.` is embedded as `normSq ≤ 1`
(`√q ≤ 1 ↔ q ≤ 1`, see `circle_interior_iff`); `d.floor() as u32` is
`⌊√normSq⌋ = Nat.sqrt ⌊normSq⌋` (see `floor_sqrt_eq`) saturated at
`u32::MAX` by the `as` cast; and `(iterations - …) as u32 … as i32` is the
release-profile wrapping `u32` subtraction reinterpreted as `i32`. -/
def circle (c : Complex) (iterations : ℕ) : ℤ :=
  if c.normSq ≤ 1 then -1
  else
    let fl := min (Nat.sqrt (⌊c.normSq⌋).toNat) (2 ^ 32 - 1)
    i32ofU32 ((iterations + 2 ^ 32 - fl) % 2 ^ 32)

/-- Bridging lemma: the source's interior test `d <= 1.`
(`d = √normSq`) holds exactly when `normSq ≤ 1`. -/
theorem circle_interior_iff (c : Complex) :
    Real.sqrt (c.normSq : ℝ) ≤ 1 ↔ c.normSq ≤ 1 := by
  rw [Real.sqrt_le_one]
  constructor <;> intro h <;> exact_mod_cast h

theorem natSqrt_eq (n k : ℕ) (h1 : k * k ≤ n) (h2 : n < (k + 1) * (k + 1)) :
    Nat.sqrt n = k := by
  have hle : Nat.sqrt n < k + 1 := Nat.sqrt_lt.mpr h2
  have hge : k ≤ Nat.sqrt n := Nat.le_sqrt.mpr h1
  omega

/-- Bridging lemma: for `0 ≤ q`, the floor of the real square root of `q`
is `Nat.sqrt ⌊q⌋` — the embedding used for `d.floor()` in `circle`. -/
theorem floor_sqrt_eq (q : ℚ) (hq : 0 ≤ q) :
    ⌊Real.sqrt (q : ℝ)⌋ = (Nat.sqrt (⌊q⌋).toNat : ℤ) := by
  set m : ℕ := (⌊q⌋).toNat with hm
  set s : ℕ := Nat.sqrt m with hs
  have hfloor0 : (0 : ℤ) ≤ ⌊q⌋ := Int.floor_nonneg.mpr hq
  have hmz : (m : ℤ) = ⌊q⌋ := Int.toNat_of_nonneg hfloor0
  have hmq : (m : ℚ) ≤ q := by
    rw [show ((m : ℕ) : ℚ) = ((m : ℤ) : ℚ) by push_cast; ring, hmz]
    exact Int.floor_le q
  have hqm : q < (m : ℚ) + 1 := by
    rw [show ((m : ℕ) : ℚ) = ((m : ℤ) : ℚ) by push_cast; ring, hmz]
    exact Int.lt_floor_add_one q
  have hlow : ((s : ℕ) : ℝ) ≤ Real.sqrt (q : ℝ) := by
    rw [Real.le_sqrt (by positivity) (by positivity)]
    have h1 : (s ^ 2 : ℕ) ≤ m := by
      have := Nat.sqrt_le' m
      simpa [pow_two] using this
    have h2 : ((m : ℕ) : ℝ) ≤ (q : ℝ) := by exact_mod_cast hmq
    calc ((s : ℕ) : ℝ) ^ 2 = ((s ^ 2 : ℕ) : ℝ) := by push_cast; ring
      _ ≤ ((m : ℕ) : ℝ) := by exact_mod_cast h1
      _ ≤ (q : ℝ) := h2
  have hhigh : Real.sqrt (q : ℝ) < ((s : ℕ) : ℝ) + 1 := by
    rw [Real.sqrt_lt' (by positivity)]
    have h1 : m + 1 ≤ (s + 1) ^ 2 := by
      have := Nat.lt_succ_sqrt' m
      have h' : m < (s + 1) ^ 2 := by simpa [pow_two, Nat.succ_eq_add_one] using this
      omega
    have h2 : (q : ℝ) < ((m : ℕ) : ℝ) + 1 := by exact_mod_cast hqm
    calc (q : ℝ) < ((m : ℕ) : ℝ) + 1 := h2
      _ ≤ (((s + 1) ^ 2 : ℕ) : ℝ) := by exact_mod_cast h1
      _ = (((s : ℕ) : ℝ) + 1) ^ 2 := by push_cast; ring
  rw [Int.floor_eq_iff]
  constructor
  · push_cast
    exact hlow
  · push_cast
    exact hhigh

/-- **C5 (amended).** `circle(c, n)` returns `-1` whenever `|c| ≤ 1`; and
whenever `|c| > 1`, *provided* `⌊|c|⌋` does not exceed `u32::MAX`
(otherwise the `as u32` cast saturates) and `n - ⌊|c|⌋` fits in the `i32`
range `[-2^31, 2^31)` (otherwise the wrapping `u32` subtraction /
`as i32` reinterpretation depart from exact integer arithmetic), it
returns `n - ⌊|c|⌋`. -/
theorem C5_circle_escape (c : Complex) (n : ℕ) (hn : n < 2 ^ 32) :
    (Real.sqrt (c.normSq : ℝ) ≤ 1 → circle c n = -1) ∧
    (1 < Real.sqrt (c.normSq : ℝ) →
      ⌊Real.sqrt (c.normSq : ℝ)⌋ ≤ 2 ^ 32 - 1 →
      -(2 ^ 31) ≤ (n : ℤ) - ⌊Real.sqrt (c.normSq : ℝ)⌋ →
      (n : ℤ) - ⌊Real.sqrt (c.normSq : ℝ)⌋ < 2 ^ 31 →
      circle c n = (n : ℤ) - ⌊Real.sqrt (c.normSq : ℝ)⌋) := by
  have hq0 : 0 ≤ c.normSq := Complex.normSq_nonneg c
  have hfl := floor_sqrt_eq c.normSq hq0
  constructor
  · intro h
    rw [circle, if_pos ((circle_interior_iff c).mp h)]
  · intro hgt hsat hlo hhi
    have hnot : ¬ c.normSq ≤ 1 := by
      intro hle
      exact absurd ((circle_interior_iff c).mpr hle) (not_le.mpr hgt)
    rw [circle, if_neg hnot]
    rw [hfl] at hsat hlo hhi
    set s : ℕ := Nat.sqrt (⌊c.normSq⌋).toNat with hs
    have hsat' : s ≤ 2 ^ 32 - 1 := by
      have h := hsat
      norm_num at h ⊢
      exact_mod_cast h
    have hmin : min s (2 ^ 32 - 1) = s := min_eq_left hsat'
    simp only [hmin, hfl]
    rw [i32ofU32]
    have hlo' : (n : ℤ) - (s : ℤ) ≥ -(2 ^ 31) := hlo
    have hhi' : (n : ℤ) - (s : ℤ) < 2 ^ 31 := hhi
    rcases le_or_lt s n with hcase | hcase
    · have hmod : (n + 2 ^ 32 - s) % 2 ^ 32 = n - s := by omega
      rw [hmod, if_pos (by omega)]
      omega
    · have hmod : (n + 2 ^ 32 - s) % 2 ^ 32 = n + 2 ^ 32 - s := by omega
      rw [hmod, if_neg (by omega)]
      push_cast
      omega

/-- Witness for C5 at `c = 5/2 + 0i`, `n = 30`: `|c| = 5/2 > 1`,
`⌊|c|⌋ = 2`, and `circle` returns `30 - 2 = 28`. -/
theorem C5_witness :
    circle { r := 5/2, i := 0 } 30 = (30 : ℤ) - ⌊Real.sqrt ((Complex.normSq { r := 5/2, i := 0 } : ℚ) : ℝ)⌋ ∧
    circle { r := 5/2, i := 0 } 30 = 28 := by
  have hns : Complex.normSq ({ r := 5/2, i := 0 } : Complex) = 25 / 4 := by
    norm_num [Complex.normSq]
  have hfq : (⌊(25 / 4 : ℚ)⌋ : ℤ) = 6 := by
    rw [Int.floor_eq_iff] <;> norm_num
  have hsqrt : Nat.sqrt 6 = 2 := natSqrt_eq 6 2 (by norm_num) (by norm_num)
  have hfloor : ⌊Real.sqrt ((Complex.normSq { r := 5/2, i := 0 } : ℚ) : ℝ)⌋ = 2 := by
    rw [floor_sqrt_eq _ (Complex.normSq_nonneg _), hns, hfq]
    rw [show Int.toNat 6 = 6 from rfl, hsqrt]
    norm_num
  have h := (C5_circle_escape { r := 5/2, i := 0 } 30 (by norm_num)).2
  have hmain := h (by
      rw [hns]
      rw [show ((25 / 4 : ℚ) : ℝ) = 25 / 4 by push_cast; ring]
      rw [show (1 : ℝ) = Real.sqrt 1 by rw [Real.sqrt_one]]
      exact Real.sqrt_lt_sqrt (by norm_num) (by norm_num))
    (by rw [hfloor]; norm_num) (by rw [hfloor]; norm_num) (by rw [hfloor]; norm_num)
  refine ⟨hmain, ?_⟩
  rw [hmain, hfloor]
  norm_num

/-- **C5 (counterexample to the unamended claim).** At `c = 2^33 + 0i`,
`n = 30`: `⌊|c|⌋ = 2^33 = 8589934592` exceeds `u32::MAX`, the `as u32`
cast saturates to `4294967295`, the wrapping subtraction gives `31`, and
`circle` returns `31` — not `30 - 8589934592` as the claim's formula
demands. -/
theorem C5_counterexample :
    circle { r := 8589934592, i := 0 } 30 = 31 ∧
    ⌊Real.sqrt ((Complex.normSq { r := 8589934592, i := 0 } : ℚ) : ℝ)⌋ = 8589934592 ∧
    (31 : ℤ) ≠ (30 : ℤ) - 8589934592 := by
  have hns : Complex.normSq ({ r := 8589934592, i := 0 } : Complex)
      = 73786976294838206464 := by
    norm_num [Complex.normSq]
  have hfq : (⌊(73786976294838206464 : ℚ)⌋ : ℤ) = 73786976294838206464 := by
    rw [Int.floor_eq_iff] <;> norm_num
  have hsqrt : Nat.sqrt 73786976294838206464 = 8589934592 :=
    natSqrt_eq _ _ (by norm_num) (by norm_num)
  refine ⟨?_, ?_, by norm_num⟩
  · rw [circle, if_neg (by rw [hns]; norm_num)]
    rw [hns, hfq]
    rw [show Int.toNat 73786976294838206464 = 73786976294838206464 from rfl, hsqrt]
    rw [show min 8589934592 (2 ^ 32 - 1) = 4294967295 from
      min_eq_right (by norm_num)]
    rw [i32ofU32]
    norm_num
  · rw [floor_sqrt_eq _ (Complex.normSq_nonneg _), hns, hfq]
    rw [show Int.toNat 73786976294838206464 = 73786976294838206464 from rfl, hsqrt]
    norm_num

/-! ## Rasterizer (src/main.rs:63-97) -/

/-- Rust's saturating `as u8` cast from `f64`: truncate toward zero, clamp
into `[0, 255]`. -/
def u8cast (q : ℚ) : ℕ := if q < 0 then 0 else min 255 (⌊q⌋).toNat

/-- `z_to_color(z, steps)` from src/main.rs:63-70: `-1` maps to opaque
black `[0,0,0,255]`; otherwise the red channel is
`((255. / steps as f64) * z as f64) as u8` (saturating cast) with green and
blue `0` and alpha `255`.  A color is a `[u8; 4]`, modelled as a 4-element
byte list. -/
def z_to_color (z : ℤ) (steps : ℕ) : List ℕ :=
  if z = -1 then [0, 0, 0, 255]
  else [u8cast (255 / (steps : ℚ) * (z : ℚ)), 0, 0, 255]

theorem z_to_color_length (z : ℤ) (steps : ℕ) : (z_to_color z steps).length = 4 := by
  rw [z_to_color]
  split <;> rfl

/-- `draw_image(view, width, height, function)` from src/main.rs:72-97:
`iproduct!(all_y, all_x)` enumerates pixel coordinates row-major (`y`
outer), each is mapped through `function` at
`pixel_to_complex((width, height), (x, y))` with `view.sharpness`
iterations and colored by `z_to_color`, and the per-pixel colors are
flattened into one RGBA byte buffer (`ImageBuffer::from_raw`). -/
def draw_image (view : View) (width height : ℕ) (function : Complex → ℕ → ℤ) : List ℕ :=
  (((List.range height).flatMap fun y => (List.range width).map fun x => (y, x)).map
    fun p => z_to_color
      (function (view.pixel_to_complex (width, height) (p.2, p.1)) view.sharpness)
      view.sharpness).flatten

theorem flatten_drop_uniform {α : Type} (k : ℕ) :
    ∀ (ls : List (List α)) (i : ℕ), (∀ l ∈ ls, l.length = k) →
      ls.flatten.drop (k * i) = (ls.drop i).flatten := by
  intro ls
  induction ls with
  | nil => intro i _; simp
  | cons a t ih =>
    intro i hlen
    cases i with
    | zero => simp
    | succ j =>
      have ha : a.length = k := hlen a (List.mem_cons_self a t)
      have hstep : k * (j + 1) = a.length + k * j := by rw [ha]; ring
      rw [List.flatten_cons, hstep, List.drop_append, List.drop_succ_cons]
      exact ih j fun l hl => hlen l (List.mem_cons_of_mem a hl)

theorem flatten_extract {α : Type} (k : ℕ) (ls : List (List α)) (i : ℕ)
    (hlen : ∀ l ∈ ls, l.length = k) (hi : i < ls.length) :
    (ls.flatten.drop (k * i)).take k = ls[i] := by
  rw [flatten_drop_uniform k ls i hlen]
  rw [List.drop_eq_getElem_cons hi, List.flatten_cons]
  rw [show k = (ls[i]).length from (hlen ls[i] (List.getElem_mem hi)).symm]
  exact List.take_left _ _

theorem flatten_flatMap_eq {α β : Type} (l : List α) (g : α → List (List β)) :
    (l.flatMap g).flatten = (l.map fun a => (g a).flatten).flatten := by
  induction l with
  | nil => rfl
  | cons a t ih => simp [List.flatMap_cons, List.flatten_append, ih]

theorem flatten_length_uniform {α : Type} (k : ℕ) :
    ∀ ls : List (List α), (∀ l ∈ ls, l.length = k) →
      ls.flatten.length = k * ls.length := by
  intro ls
  induction ls with
  | nil => intro _; simp
  | cons a t ih =>
    intro hlen
    have ha : a.length = k := hlen a (List.mem_cons_self a t)
    rw [List.flatten_cons, List.length_append, ha,
      ih fun l hl => hlen l (List.mem_cons_of_mem a hl)]
    simp
    ring

/-- The rendered buffer decomposes into rows of `4 * W` bytes, each row
into pixel blocks of 4 bytes. -/
theorem draw_image_eq_rows (v : View) (W H : ℕ) (f : Complex → ℕ → ℤ) :
    draw_image v W H f = ((List.range H).map fun y =>
      ((List.range W).map fun x => z_to_color
        (f (v.pixel_to_complex (W, H) (x, y)) v.sharpness) v.sharpness).flatten).flatten := by
  rw [draw_image, List.map_flatMap, flatten_flatMap_eq]
  congr 1
  apply List.map_congr_left
  intro y _
  congr 1
  rw [List.map_map]
  rfl

/-- Extracting the 4-byte block of pixel `(x, y)` from the row-major
flattened buffer of any per-pixel 4-byte color function. -/
theorem rows_extract (g : ℕ → ℕ → List ℕ) (hg : ∀ a b, (g a b).length = 4)
    (W H x y : ℕ) (hx : x < W) (hy : y < H) :
    (((((List.range H).map fun y =>
        ((List.range W).map fun x => g x y).flatten).flatten).drop
      (4 * (y * W + x))).take 4) = g x y := by
  have hblocklen : ∀ l ∈ (List.range W).map fun x => g x y, l.length = 4 := by
    intro l hl
    rcases List.mem_map.mp hl with ⟨i, _, rfl⟩
    exact hg i y
  have hrowlen : ∀ l ∈ (List.range H).map fun y =>
      ((List.range W).map fun x => g x y).flatten, l.length = 4 * W := by
    intro l hl
    rcases List.mem_map.mp hl with ⟨j, _, rfl⟩
    rw [flatten_length_uniform 4 _ (by
      intro l' hl'
      rcases List.mem_map.mp hl' with ⟨i, _, rfl⟩
      exact hg i j)]
    simp
  have harith : 4 * (y * W + x) = 4 * W * y + 4 * x := by ring
  rw [harith, ← List.drop_drop]
  rw [flatten_drop_uniform (4 * W) _ y hrowlen]
  have hylen : y < ((List.range H).map fun y =>
      ((List.range W).map fun x => g x y).flatten).length := by simpa using hy
  have hdropy : ((List.range H).map fun y =>
        ((List.range W).map fun x => g x y).flatten).drop y
      = (((List.range H).map fun y =>
          ((List.range W).map fun x => g x y).flatten)[y]) ::
        ((List.range H).map fun y =>
          ((List.range W).map fun x => g x y).flatten).drop (y + 1) :=
    List.drop_eq_getElem_cons hylen
  rw [hdropy, List.flatten_cons, List.getElem_map, List.getElem_range]
  rw [List.drop_append_of_le_length (by
    rw [flatten_length_uniform 4 _ hblocklen]
    simpa using Nat.mul_le_mul_left 4 hx.le)]
  rw [flatten_drop_uniform 4 _ x hblocklen]
  have hxlen : x < ((List.range W).map fun x => g x y).length := by simpa using hx
  have hdropx : ((List.range W).map fun x => g x y).drop x
      = (((List.range W).map fun x => g x y)[x]) ::
        ((List.range W).map fun x => g x y).drop (x + 1) :=
    List.drop_eq_getElem_cons hxlen
  rw [hdropx, List.flatten_cons, List.getElem_map, List.getElem_range]
  rw [List.append_assoc]
  rw [show (4 : ℕ) = (g x y).length from (hg x y).symm]
  exact List.take_left _ _

/-- **C6 (amended).** The rendered byte buffer at pixel `(x, y)` (bytes
`4*(y*W+x)` through `4*(y*W+x)+3`) is exactly
`z_to_color(evaluator(pixel_to_complex(v, (W,H), (x,y)), sharpness),
sharpness)`; `-1` colors to `(0,0,0,255)`; any other escape index `z`
colors to red `floor(255 * z / sharpness)` *saturated into the byte range
`[0, 255]`* (the `as u8` cast clamps; negative ramp values — reachable
with the circle evaluator — become 0, values above 255 become 255), green
and blue `0`, alpha `255`.  In particular the circle evaluator at
sharpness 30 renders a pixel mapping to the origin as `(0,0,0,255)`. -/
theorem C6_render_colors (v : View) (W H : ℕ) (f : Complex → ℕ → ℤ) (x y : ℕ)
    (hx : x < W) (hy : y < H) :
    ((draw_image v W H f).drop (4 * (y * W + x))).take 4
      = z_to_color (f (v.pixel_to_complex (W, H) (x, y)) v.sharpness) v.sharpness ∧
    z_to_color (-1) v.sharpness = [0, 0, 0, 255] ∧
    (∀ z : ℤ, z ≠ -1 → 0 ≤ z → z_to_color z v.sharpness
      = [min 255 (⌊255 / (v.sharpness : ℚ) * (z : ℚ)⌋).toNat, 0, 0, 255]) ∧
    ((draw_image { r := 0, i := 0, zoom := 300, sharpness := 30 } 2 2 circle).drop
        (4 * (1 * 2 + 1))).take 4 = [0, 0, 0, 255] := by
  have main : ∀ (v : View) (W H : ℕ) (f : Complex → ℕ → ℤ) (x y : ℕ),
      x < W → y < H →
      ((draw_image v W H f).drop (4 * (y * W + x))).take 4
        = z_to_color (f (v.pixel_to_complex (W, H) (x, y)) v.sharpness) v.sharpness := by
    intro v W H f x y hx hy
    rw [draw_image_eq_rows]
    exact rows_extract
      (fun x y => z_to_color
        (f (v.pixel_to_complex (W, H) (x, y)) v.sharpness) v.sharpness)
      (fun _ _ => z_to_color_length _ _) W H x y hx hy
  refine ⟨main v W H f x y hx hy, by rw [z_to_color, if_pos rfl], ?_, ?_⟩
  · intro z hz hz0
    rw [z_to_color, if_neg hz, u8cast, if_neg ?_]
    have : (0 : ℚ) ≤ (v.sharpness : ℚ) := by positivity
    rcases eq_or_ne v.sharpness 0 with h0 | h0
    · simp [h0]
    · push_neg
      apply mul_nonneg
      · positivity
      · exact_mod_cast hz0
  · have h := main { r := 0, i := 0, zoom := 300, sharpness := 30 } 2 2 circle 1 1
      (by norm_num) (by norm_num)
    rw [h]
    have hc : View.pixel_to_complex { r := 0, i := 0, zoom := 300, sharpness := 30 }
        (2, 2) (1, 1) = { r := 0, i := 0 } := by
      rw [View.pixel_to_complex]
      norm_num
    rw [hc]
    rw [circle, if_pos (by norm_num [Complex.normSq])]
    rw [z_to_color, if_pos rfl]

/-- Witness for C6 at the default viewport on an 800×600 canvas with the
optimized Mandelbrot evaluator, pixel `(0, 0)`. -/
theorem C6_witness :
    ((draw_image initialView 800 600 mandelbrot_optimized).drop
        (4 * (0 * 800 + 0))).take 4
      = z_to_color
          (mandelbrot_optimized (initialView.pixel_to_complex (800, 600) (0, 0))
            initialView.sharpness)
          initialView.sharpness :=
  (C6_render_colors initialView 800 600 mandelbrot_optimized 0 0
    (by norm_num) (by norm_num)).1

/-- **C6 (counterexample to the unamended claim).** On a viewport centered
at `100 + 0i` (zoom 300, sharpness 30) with a 1×1 canvas, the circle
evaluator yields escape index `-69`; the claimed red channel
`floor(255 * (-69) / 30) = -587` is not a byte, and the rendered buffer
actually holds `0` (the saturating `as u8` cast clamps negatives to 0). -/
theorem C6_counterexample :
    circle (View.pixel_to_complex { r := 100, i := 0, zoom := 300, sharpness := 30 }
      (1, 1) (0, 0)) 30 = -69 ∧
    draw_image { r := 100, i := 0, zoom := 300, sharpness := 30 } 1 1 circle
      = [0, 0, 0, 255] ∧
    ⌊255 / (30 : ℚ) * ((-69 : ℤ) : ℚ)⌋ = -587 ∧
    (0 : ℤ) ≠ -587 := by
  have hc : View.pixel_to_complex { r := 100, i := 0, zoom := 300, sharpness := 30 }
      (1, 1) (0, 0) = { r := 59999/600, i := 1/600 } := by
    rw [View.pixel_to_complex]
    norm_num
  have hns : Complex.normSq { r := 59999/600, i := 1/600 } = 3599880002/360000 := by
    norm_num [Complex.normSq]
  have hfq : (⌊(3599880002/360000 : ℚ)⌋ : ℤ) = 9999 := by
    rw [Int.floor_eq_iff] <;> norm_num
  have hsqrt : Nat.sqrt 9999 = 99 := natSqrt_eq 9999 99 (by norm_num) (by norm_num)
  have hcirc : circle { r := 59999/600, i := 1/600 } 30 = -69 := by
    rw [circle, if_neg (by rw [hns]; norm_num)]
    rw [hns, hfq]
    rw [show Int.toNat 9999 = 9999 from rfl, hsqrt]
    rw [show min 99 (2 ^ 32 - 1) = 99 from min_eq_left (by norm_num)]
    rw [i32ofU32]
    norm_num
  refine ⟨by rw [hc]; exact hcirc, ?_, ?_, by norm_num⟩
  · rw [draw_image]
    rw [show List.range 1 = [0] from rfl]
    simp only [List.flatMap_cons, List.flatMap_nil, List.map_cons, List.map_nil,
      List.append_nil, List.flatten]
    rw [hc, hcirc]
    rw [z_to_color, if_neg (by norm_num)]
    rw [u8cast, if_pos (by norm_num)]
  · rw [Int.floor_eq_iff] <;> norm_num

/-! ## Precision auditor (src/main.rs:213-230)

The F2 handler works with `astro_float::BigFloat` at precision `p = 32`
bits and `RoundingMode::None` (no rounding: extra mantissa bits are
truncated).  A finite `BigFloat` value at 32-bit precision is a rational
of the form `± m / 2^s` with `m < 2^32`; each operation computes the exact
rational result and truncates its magnitude to 32 significant binary
digits.  `trunc32` is that truncation. -/

/-- Truncation of a rational to 32 significant binary digits, toward zero:
the embedding of a 32-bit-precision `BigFloat` operation result under
`RoundingMode::None`. -/
def trunc32 (q : ℚ) : ℚ :=
  if q = 0 then 0
  else
    (if q < 0 then -1 else 1) *
      (⌊|q| * (2 : ℚ) ^ (31 - Int.log 2 |q|)⌋ : ℚ) / (2 : ℚ) ^ (31 - Int.log 2 |q|)

theorem intLog_eq_of {q : ℚ} {e : ℤ} (h0 : 0 < q)
    (h1 : (2 : ℚ) ^ e ≤ q) (h2 : q < (2 : ℚ) ^ (e + 1)) : Int.log 2 q = e := by
  have hb : 1 < (2 : ℕ) := one_lt_two
  have hle : e ≤ Int.log 2 q := by
    rw [← Int.zpow_le_iff_le_log hb h0]
    exact_mod_cast h1
  have hlt : Int.log 2 q < e + 1 := by
    rw [← Int.lt_zpow_iff_log_lt hb h0]
    exact_mod_cast h2
  omega

theorem trunc32_neg (q : ℚ) : trunc32 (-q) = -trunc32 q := by
  rcases lt_trichotomy q 0 with h | h | h
  · have h1 : ¬(-q = 0) := by intro hc; rw [neg_eq_zero] at hc; exact absurd hc (ne_of_lt h)
    have h2 : ¬(-q < 0) := by push_neg; linarith
    rw [trunc32, trunc32, abs_neg, if_neg h1, if_neg (ne_of_lt h), if_neg h2, if_pos h]
    ring
  · rw [h]; simp [trunc32]
  · have h1 : ¬(-q = 0) := by intro hc; rw [neg_eq_zero] at hc; exact absurd hc (ne_of_gt h)
    have h2 : -q < 0 := by linarith
    rw [trunc32, trunc32, abs_neg, if_neg h1, if_neg (ne_of_gt h), if_pos h2,
      if_neg (not_lt.mpr h.le)]
    ring

/-- `trunc32` characterization for magnitudes in `[2^a, 2^(a+1))`,
`a ≤ 31`. -/
theorem trunc32_eq_mid (q : ℚ) (a m : ℕ) (ha : a ≤ 31) (h0 : 0 < q)
    (h1 : (2 : ℚ) ^ a ≤ q) (h2 : q < (2 : ℚ) ^ (a + 1))
    (hm : ⌊q * (2 : ℚ) ^ (31 - a)⌋ = (m : ℤ)) :
    trunc32 q = (m : ℚ) / (2 : ℚ) ^ (31 - a) := by
  have hlog : Int.log 2 q = (a : ℤ) := by
    apply intLog_eq_of h0
    · rw [zpow_natCast]; exact h1
    · rw [show ((a : ℤ) + 1) = ((a + 1 : ℕ) : ℤ) by push_cast; ring, zpow_natCast]
      exact h2
  rw [trunc32, if_neg (ne_of_gt h0), if_neg (not_lt.mpr h0.le), abs_of_pos h0, hlog]
  rw [show (31 : ℤ) - (a : ℤ) = ((31 - a : ℕ) : ℤ) by omega, zpow_natCast, hm]
  push_cast
  ring

/-- `trunc32` characterization for magnitudes in `[2^(-a), 2^(-(a-1)))`,
`1 ≤ a` (negative binary exponent). -/
theorem trunc32_eq_small (q : ℚ) (a m : ℕ) (ha : 1 ≤ a) (h0 : 0 < q)
    (h1 : ((2 : ℚ) ^ a)⁻¹ ≤ q) (h2 : q < ((2 : ℚ) ^ (a - 1))⁻¹)
    (hm : ⌊q * (2 : ℚ) ^ (31 + a)⌋ = (m : ℤ)) :
    trunc32 q = (m : ℚ) / (2 : ℚ) ^ (31 + a) := by
  have hlog : Int.log 2 q = -(a : ℤ) := by
    apply intLog_eq_of h0
    · rw [zpow_neg, zpow_natCast]; exact h1
    · rw [show (-(a : ℤ) + 1) = -((a - 1 : ℕ) : ℤ) by omega, zpow_neg, zpow_natCast]
      exact h2
  rw [trunc32, if_neg (ne_of_gt h0), if_neg (not_lt.mpr h0.le), abs_of_pos h0, hlog]
  rw [show (31 : ℤ) - -(a : ℤ) = ((31 + a : ℕ) : ℤ) by omega, zpow_natCast, hm]
  push_cast
  ring

/-- `trunc32` characterization for magnitudes in `[2^a, 2^(a+1))`,
`a > 31` (the mantissa is scaled down). -/
theorem trunc32_eq_big (q : ℚ) (a m : ℕ) (ha : 31 < a) (h0 : 0 < q)
    (h1 : (2 : ℚ) ^ a ≤ q) (h2 : q < (2 : ℚ) ^ (a + 1))
    (hm : ⌊q / (2 : ℚ) ^ (a - 31)⌋ = (m : ℤ)) :
    trunc32 q = (m : ℚ) * (2 : ℚ) ^ (a - 31) := by
  have hlog : Int.log 2 q = (a : ℤ) := by
    apply intLog_eq_of h0
    · rw [zpow_natCast]; exact h1
    · rw [show ((a : ℤ) + 1) = ((a + 1 : ℕ) : ℤ) by push_cast; ring, zpow_natCast]
      exact h2
  rw [trunc32, if_neg (ne_of_gt h0), if_neg (not_lt.mpr h0.le), abs_of_pos h0, hlog]
  rw [show (31 : ℤ) - (a : ℤ) = -((a - 31 : ℕ) : ℤ) by omega, zpow_neg, zpow_natCast]
  rw [show q * ((2 : ℚ) ^ (a - 31))⁻¹ = q / (2 : ℚ) ^ (a - 31) from
    (div_eq_mul_inv q _).symm, hm]
  rw [one_mul, div_inv_eq_mul]
  push_cast
  ring

theorem floor_eq_ofNat (q : ℚ) (m : ℕ) (h1 : (m : ℚ) ≤ q) (h2 : q < (m : ℚ) + 1) :
    ⌊q⌋ = (m : ℤ) :=
  Int.floor_eq_iff.mpr ⟨by exact_mod_cast h1, by push_cast; exact h2⟩

/-- The `relative_difference` computed by the F2 precision-audit handler
(src/main.rs:213-222): `x = BigFloat::from_f64(pixel_to_complex((W,H),
(0,0)).r, 32)`, `z = BigFloat::from_f64(zoom, 32)`,
`y = x + z.reciprocal()`, `d = y - x`, `relative_difference =
z.reciprocal() / d`, every operation truncated to 32 significant bits.
(When `d = 0` the embedding's rational division yields `0`, which — like
astro_float's infinite quotient — lies outside the GOOD band below.) -/
def auditRelativeDifference (v : View) (W H : ℕ) : ℚ :=
  let x := trunc32 ((v.pixel_to_complex (W, H) (0, 0)).r)
  let z := trunc32 v.zoom
  let zr := trunc32 z⁻¹
  let y := trunc32 (x + zr)
  let d := trunc32 (y - x)
  trunc32 (zr / d)

/-- The F2 handler's verdict (src/main.rs:223-229): `true` iff it prints
"GOOD!", i.e. iff `relative_difference` is neither above
`ub = 1001/1000` nor below `lb = 1000/1001` (both bounds computed by
32-bit BigFloat division). -/
def auditGood (v : View) (W H : ℕ) : Bool :=
  let relative_difference := auditRelativeDifference v W H
  let ub := trunc32 (trunc32 1001 / trunc32 1000)
  let lb := trunc32 (trunc32 1000 / trunc32 1001)
  if relative_difference > ub ∨ relative_difference < lb then false else true

theorem trunc32_1001 : trunc32 1001 = 1001 := by
  have h := trunc32_eq_mid 1001 9 4198498304 (by norm_num) (by norm_num)
    (by norm_num) (by norm_num)
    (floor_eq_ofNat _ _ (by norm_num) (by norm_num))
  rw [h]
  norm_num

theorem trunc32_1000 : trunc32 1000 = 1000 := by
  have h := trunc32_eq_mid 1000 9 4194304000 (by norm_num) (by norm_num)
    (by norm_num) (by norm_num)
    (floor_eq_ofNat _ _ (by norm_num) (by norm_num))
  rw [h]
  norm_num

theorem trunc32_ub : trunc32 ((1001 : ℚ) / 1000) = 2149631131 / 2147483648 := by
  have h := trunc32_eq_mid (1001 / 1000) 0 2149631131 (by norm_num) (by norm_num)
    (by norm_num) (by norm_num)
    (floor_eq_ofNat _ _ (by norm_num) (by norm_num))
  rw [h]
  norm_num

theorem trunc32_lb : trunc32 ((1000 : ℚ) / 1001) = 4290676619 / 4294967296 := by
  have h := trunc32_eq_small (1000 / 1001) 1 4290676619 (by norm_num) (by norm_num)
    (by norm_num) (by norm_num)
    (floor_eq_ofNat _ _ (by norm_num) (by norm_num))
  rw [h]
  norm_num

/-- The relative difference computed by the audit on the default viewport
with `zoom = 1e15` on an 800×600 canvas: about `4.29e-6`, far below 1 —
the 32-bit representation of `x ≈ -0.75` absorbs the whole `1/zoom`
increment, so `d = y - x` collapses to one unit in the last place
(`2^-32`) instead of `1e-15`. -/
theorem auditRD_zoom1e15 :
    auditRelativeDifference
      { r := -3/4, i := 0, zoom := 1000000000000000, sharpness := 30 } 800 600
      = 2417851639 / 562949953421312 := by
  have hpix : (View.pixel_to_complex
      { r := -3/4, i := 0, zoom := 1000000000000000, sharpness := 30 }
      (800, 600) (0, 0)).r = -(1875000000001 / 2500000000000) := by
    rw [View.pixel_to_complex]
    norm_num
  have hx : trunc32 (1875000000001 / 2500000000000) = 3 / 4 := by
    have h := trunc32_eq_small (1875000000001 / 2500000000000) 1 3221225472
      (by norm_num) (by norm_num) (by norm_num) (by norm_num)
      (floor_eq_ofNat _ _ (by norm_num) (by norm_num))
    rw [h]
    norm_num
  have hz : trunc32 (1000000000000000 : ℚ) = 999999999836160 := by
    have h := trunc32_eq_big 1000000000000000 49 3814697265 (by norm_num)
      (by norm_num) (by norm_num) (by norm_num)
      (floor_eq_ofNat _ _ (by norm_num) (by norm_num))
    rw [h]
    norm_num
  have hzr : trunc32 ((999999999836160 : ℚ)⁻¹)
      = 2417851639 / 2417851639229258349412352 := by
    have h := trunc32_eq_small ((999999999836160 : ℚ)⁻¹) 50 2417851639
      (by norm_num) (by norm_num) (by norm_num) (by norm_num)
      (floor_eq_ofNat _ _ (by norm_num) (by norm_num))
    rw [h]
    norm_num
  have hsum : (-(3 / 4) + 2417851639 / 2417851639229258349412352 : ℚ)
      = -(1813388729421941344207625 / 2417851639229258349412352) := by norm_num
  have hy : trunc32 (1813388729421941344207625 / 2417851639229258349412352)
      = 3221225471 / 4294967296 := by
    have h := trunc32_eq_small
      (1813388729421941344207625 / 2417851639229258349412352) 1 3221225471
      (by norm_num) (by norm_num) (by norm_num) (by norm_num)
      (floor_eq_ofNat _ _ (by norm_num) (by norm_num))
    rw [h]
    norm_num
  have hdiff : (-(3221225471 / 4294967296) - -(3 / 4) : ℚ) = 1 / 4294967296 := by
    norm_num
  have hd : trunc32 ((1 : ℚ) / 4294967296) = 1 / 4294967296 := by
    have h := trunc32_eq_small ((1 : ℚ) / 4294967296) 32 2147483648
      (by norm_num) (by norm_num) (by norm_num) (by norm_num)
      (floor_eq_ofNat _ _ (by norm_num) (by norm_num))
    rw [h]
    norm_num
  have hquot : ((2417851639 / 2417851639229258349412352 : ℚ) / (1 / 4294967296))
      = 2417851639 / 562949953421312 := by norm_num
  have hrd : trunc32 ((2417851639 : ℚ) / 562949953421312)
      = 2417851639 / 562949953421312 := by
    have h := trunc32_eq_small ((2417851639 : ℚ) / 562949953421312) 18 2417851639
      (by norm_num) (by norm_num) (by norm_num) (by norm_num)
      (floor_eq_ofNat _ _ (by norm_num) (by norm_num))
    rw [h]
    norm_num
  simp only [auditRelativeDifference]
  rw [hpix, trunc32_neg, hx]
  rw [hz, hzr, hsum, trunc32_neg, hy]
  rw [hdiff, hd, hquot, hrd]

/-- The relative difference computed by the audit on the default viewport
(`zoom = 300`) on an 800×600 canvas: within `2e-7` of 1. -/
theorem auditRD_zoom300 :
    auditRelativeDifference initialView 800 600 = 4294966591 / 4294967296 := by
  have hpix : (View.pixel_to_complex initialView (800, 600) (0, 0)).r
      = -(25 / 12) := by
    rw [View.pixel_to_complex, initialView]
    norm_num
  have hx : trunc32 (25 / 12) = 2236962133 / 1073741824 := by
    have h := trunc32_eq_mid (25 / 12) 1 2236962133 (by norm_num) (by norm_num)
      (by norm_num) (by norm_num)
      (floor_eq_ofNat _ _ (by norm_num) (by norm_num))
    rw [h]
    norm_num
  have hz : trunc32 (300 : ℚ) = 300 := by
    have h := trunc32_eq_mid 300 8 2516582400 (by norm_num) (by norm_num)
      (by norm_num) (by norm_num)
      (floor_eq_ofNat _ _ (by norm_num) (by norm_num))
    rw [h]
    norm_num
  have hzr : trunc32 ((300 : ℚ)⁻¹) = 3665038759 / 1099511627776 := by
    have h := trunc32_eq_small ((300 : ℚ)⁻¹) 9 3665038759
      (by norm_num) (by norm_num) (by norm_num) (by norm_num)
      (floor_eq_ofNat _ _ (by norm_num) (by norm_num))
    rw [h]
    norm_num
  have hsum : (-(2236962133 / 1073741824) + 3665038759 / 1099511627776 : ℚ)
      = -(2286984185433 / 1099511627776) := by norm_num
  have hy : trunc32 (2286984185433 / 1099511627776) = 2233382993 / 1073741824 := by
    have h := trunc32_eq_mid (2286984185433 / 1099511627776) 1 2233382993
      (by norm_num) (by norm_num) (by norm_num) (by norm_num)
      (floor_eq_ofNat _ _ (by norm_num) (by norm_num))
    rw [h]
    norm_num
  have hdiff : (-(2233382993 / 1073741824) - -(2236962133 / 1073741824) : ℚ)
      = 894785 / 268435456 := by norm_num
  have hd : trunc32 ((894785 : ℚ) / 268435456) = 894785 / 268435456 := by
    have h := trunc32_eq_small ((894785 : ℚ) / 268435456) 9 3665039360
      (by norm_num) (by norm_num) (by norm_num) (by norm_num)
      (floor_eq_ofNat _ _ (by norm_num) (by norm_num))
    rw [h]
    norm_num
  have hquot : ((3665038759 / 1099511627776 : ℚ) / (894785 / 268435456))
      = 3665038759 / 3665039360 := by norm_num
  have hrd : trunc32 ((3665038759 : ℚ) / 3665039360) = 4294966591 / 4294967296 := by
    have h := trunc32_eq_small ((3665038759 : ℚ) / 3665039360) 1 4294966591
      (by norm_num) (by norm_num) (by norm_num) (by norm_num)
      (floor_eq_ofNat _ _ (by norm_num) (by norm_num))
    rw [h]
    norm_num
  simp only [auditRelativeDifference]
  rw [hpix, trunc32_neg, hx]
  rw [show (initialView.zoom : ℚ) = (300 : ℚ) from rfl]
  rw [hz, hzr, hsum, trunc32_neg, hy]
  rw [hdiff, hd, hquot, hrd]

/-- **C4.** The precision audit compares `relative_difference = (1/zoom)/d`
against the bounds `1001/1000` and `1000/1001` (as computed by the same
32-bit big-float arithmetic) and reports "BAD" exactly when
`relative_difference` falls outside `[1000/1001, 1001/1000]`, otherwise
"GOOD"; on the default viewport with `zoom = 1e15` it reports "BAD"
(`relative_difference ≈ 4.3e-6`, below the lower bound), and on the
default viewport (`zoom = 300`) it reports "GOOD". -/
theorem C4_precision_audit :
    (∀ (v : View) (W H : ℕ), auditGood v W H = false ↔
      (trunc32 (trunc32 1001 / trunc32 1000) < auditRelativeDifference v W H ∨
       auditRelativeDifference v W H < trunc32 (trunc32 1000 / trunc32 1001))) ∧
    auditGood { r := -3/4, i := 0, zoom := 1000000000000000, sharpness := 30 } 800 600
      = false ∧
    auditGood initialView 800 600 = true := by
  refine ⟨?_, ?_, ?_⟩
  · intro v W H
    simp only [auditGood]
    by_cases h : (trunc32 (trunc32 1001 / trunc32 1000) < auditRelativeDifference v W H ∨
        auditRelativeDifference v W H < trunc32 (trunc32 1000 / trunc32 1001))
    · rw [if_pos h]
      exact iff_of_true rfl h
    · rw [if_neg h]
      exact iff_of_false (by simp) h
  · simp only [auditGood]
    rw [auditRD_zoom1e15, trunc32_1001, trunc32_1000, trunc32_ub, trunc32_lb]
    rw [if_pos (Or.inr (by norm_num))]
  · simp only [auditGood]
    rw [auditRD_zoom300, trunc32_1001, trunc32_1000, trunc32_ub, trunc32_lb]
    rw [if_neg (by push_neg; constructor <;> norm_num)]

end Mandelrust
